import Mathlib

/-!
Verification of the batch slicing engine of the audio-slicer GUI
(`gui/mainwindow.py`).

The embedding models:
* `WorkStatus` — the per-item status enumeration;
* `Worker.run` — the job body: it emits `startRunning`, decodes the input,
  slices it, writes one file per chunk, and emits `finishedWithArgs`;
  decoding, slicing and writing may raise, which aborts the job body at
  that point (there is no try/except in the source);
* the output-path construction
  `os.path.join(out_dir, '%s_%d.wav' % (basename(filename).rsplit('.', 1)[0], i))`
  together with the `out_dir == ''` fallback to
  `os.path.dirname(os.path.abspath(filename))` (input paths are modelled as
  already absolute, so `abspath` is the identity);
* `MainWindow` state (`workCount`, `workFinished`, `processing`, the model
  items' status role, the progress bar, the thread pool) and the slots
  `_q_start`, `_q_add_audio_files`, `_q_clear_audio_list`,
  `_q_threadStartProcessing`, `_q_threadFinished`;
* delivery of the queued worker signals to the GUI thread as a trace of
  `JobEvent`s processed in order; a job that raises mid-run releases its
  pool slot without emitting `finishedWithArgs`, which the trace records
  as a `failed` event that the GUI never observes.
-/

/-- The `WorkStatus` enumeration of `mainwindow.py`. -/
inductive WorkStatus where
  | NEW
  | PENDING
  | PROCESSING
  | FINISHED
  | ERROR
deriving DecidableEq, Repr

/-- The `_work_status_string` display-suffix table. -/
def workStatusString : WorkStatus → List Char
  | .NEW => []
  | .PENDING => " (pending)".toList
  | .PROCESSING => " (processing)".toList
  | .FINISHED => " (finished)".toList
  | .ERROR => " (error)".toList

/-! ## Path and file-name construction (`Worker.run`, lines 69–75) -/

/-- Fuel-driven core of decimal rendering (the `%d` format). -/
def decReprAux : Nat → Nat → List Char
  | 0, _ => []
  | fuel + 1, n =>
    if n < 10 then [Nat.digitChar n]
    else decReprAux fuel (n / 10) ++ [Nat.digitChar (n % 10)]

/-- Decimal rendering of a natural number, as Python `'%d' % n` produces. -/
def decRepr (n : Nat) : List Char := decReprAux (n + 1) n

/-- `os.path.basename` (posix): the part after the last `'/'`. -/
def pathBase (p : List Char) : List Char :=
  (p.reverse.takeWhile (fun c => c != '/')).reverse

/-- `s.rsplit('.', maxsplit=1)[0]`: everything before the last `'.'`,
or the whole string when there is no `'.'`. -/
def stripLastExt (s : List Char) : List Char :=
  if '.' ∈ s then ((s.reverse.dropWhile (fun c => c != '.')).drop 1).reverse else s

/-- `os.path.dirname` (posix): the head before the last `'/'`, with
trailing slashes stripped unless the head consists only of slashes. -/
def dirname (p : List Char) : List Char :=
  let head := (p.reverse.dropWhile (fun c => c != '/')).reverse
  if head.all (fun c => c == '/') then head
  else (head.reverse.dropWhile (fun c => c == '/')).reverse

/-- `os.path.join(d, name)` for a relative `name` (posix). -/
def joinPath (d name : List Char) : List Char :=
  if d = [] then name
  else if d.getLast? = some '/' then d ++ name
  else d ++ '/' :: name

/-- The output file name `'%s_%d.wav' % (basename(filename).rsplit('.', 1)[0], i)`. -/
def outputName (filename : List Char) (i : Nat) : List Char :=
  stripLastExt (pathBase filename) ++ '_' :: (decRepr i ++ '.' :: ['w', 'a', 'v'])

/-- The effective output directory of `Worker.run`: the configured one, or
the input file's own directory when the configured one is empty. -/
def effOutDir (outDir filename : List Char) : List Char :=
  if outDir = [] then dirname filename else outDir

/-- The full path `Worker.run` writes chunk `i` of `filename` to. -/
def segPath (outDir filename : List Char) (i : Nat) : List Char :=
  joinPath (effOutDir outDir filename) (outputName filename i)

/-! ## `Worker.run` as an event emitter -/

/-- The observable actions of `Worker.run`: the two signals and the
file writes. -/
inductive WEvent where
  | startRunning (jobid : Int)
  | wrote (path : List Char)
  | finishedWithArgs (jobid : Int)
deriving DecidableEq

/-- Whether a worker event is the `finishedWithArgs` emission. -/
def WEvent.isFin : WEvent → Bool
  | .finishedWithArgs _ => true
  | _ => false

/-- Whether a worker event is the `startRunning` emission. -/
def WEvent.isStart : WEvent → Bool
  | .startRunning _ => true
  | _ => false

/-- The environment a single `Worker.run` call executes against:
whether `librosa.load` succeeds, whether `slicer.slice` succeeds, how many
chunks the slicer returns, and which `soundfile.write` calls succeed. -/
structure RunEnv where
  loadOk : Bool
  sliceOk : Bool
  chunks : Nat
  writeOk : Nat → Bool

/-- `Worker.run` (lines 57–76): emit `startRunning`, then decode, slice and
write each chunk in order; an exception at any step aborts the remainder of
the body, so `finishedWithArgs` is emitted only when every step succeeds. -/
def workerRun (jobid : Int) (filename outDir : List Char) (env : RunEnv) : List WEvent :=
  WEvent.startRunning jobid ::
    (if env.loadOk then
      (if env.sliceOk then
        (let ok := (List.range env.chunks).takeWhile (fun i => env.writeOk i)
         ok.map (fun i => WEvent.wrote (segPath outDir filename i)) ++
           (if ok.length = env.chunks then [WEvent.finishedWithArgs jobid] else []))
       else [])
     else [])

/-! ## The GUI-side batch state and slots -/

/-- The `MainWindow` state relevant to batch processing: the status role of
each model item, the counters, the `processing` flag, the progress bar, the
enabled state of the input controls, the parse result of
`lineEditThreads.text()` (`none` when `int(...)` raises `ValueError`), and
the `maxThreadCount` of the created pool (`none` before any batch). -/
structure AppState where
  items : List WorkStatus
  workCount : Nat
  workFinished : Nat
  processing : Bool
  progressValue : Nat
  progressMax : Nat
  controlsEnabled : Bool
  threadsText : Option Int
  pool : Option Nat
deriving DecidableEq, Repr

/-- The `max_threads` computation of `_q_start` (lines 217–223): fall back
to `QThread.idealThreadCount()` when the text does not parse as an integer
or parses below 1. -/
def computeMaxThreads (t : Option Int) (ideal : Nat) : Nat :=
  match t with
  | none => ideal
  | some v => if v < 1 then ideal else v.toNat

/-- `_q_start` (lines 178–226). Returns the new state together with the
list of job ordinals for which a `Worker` was created and started; the
guards return the state unchanged and start nothing. -/
def startBatch (ideal : Nat) (s : AppState) : AppState × List Nat :=
  if s.processing then (s, [])
  else if s.items.length = 0 then (s, [])
  else
    let n := s.items.length
    let mt := computeMaxThreads s.threadsText ideal
    ({ s with
        items := s.items.map (fun _ => WorkStatus.PENDING),
        workCount := n,
        workFinished := 0,
        processing := true,
        progressValue := 0,
        progressMax := n,
        controlsEnabled := false,
        threadsText := some (Int.ofNat mt),
        pool := some mt }, List.range n)

/-- `_q_add_audio_files` (lines 138–151): refused while processing,
otherwise appends one `NEW` item per selected file. -/
def addAudioFiles (s : AppState) (k : Nat) : AppState :=
  if s.processing then s
  else { s with items := s.items ++ List.replicate k WorkStatus.NEW }

/-- `_q_clear_audio_list` (lines 153–158): refused while processing,
otherwise clears the model. -/
def clearAudioList (s : AppState) : AppState :=
  if s.processing then s else { s with items := [] }

/-- `_q_threadStartProcessing` (lines 230–233): set the item's status role
to `PROCESSING`. -/
def threadStartProcessing (s : AppState) (jobid : Int) : AppState :=
  { s with items := s.items.set jobid.toNat WorkStatus.PROCESSING }

/-- `_q_threadFinished` (lines 236–255): bump `workFinished` and the
progress bar, mark the item `FINISHED` when `jobid >= 0`, and when the
counters meet, clear `processing`, re-enable the controls and show the
"Slicing complete!" box (the returned Bool). -/
def threadFinished (s : AppState) (jobid : Int) : AppState × Bool :=
  let wf := s.workFinished + 1
  let s1 := { s with workFinished := wf, progressValue := wf }
  let s2 := if 0 ≤ jobid then
      { s1 with items := s1.items.set jobid.toNat WorkStatus.FINISHED }
    else s1
  if wf = s2.workCount then
    ({ s2 with processing := false, controlsEnabled := true }, true)
  else (s2, false)

/-! ## Delivery of worker signals as a trace -/

/-- One scheduler-level occurrence for job `i`: its `startRunning` signal,
its `finishedWithArgs` signal, or the point where its body raised (which
releases its pool slot but delivers nothing to the GUI). -/
inductive JobEvent where
  | started (i : Nat)
  | finished (i : Nat)
  | failed (i : Nat)
deriving DecidableEq, Repr

/-- The job ordinal an event belongs to. -/
def JobEvent.idx : JobEvent → Nat
  | .started i => i
  | .finished i => i
  | .failed i => i

/-- Whether an event is a `finished` delivery. -/
def JobEvent.isFinEv : JobEvent → Bool
  | .finished _ => true
  | _ => false

/-- Whether an event is a `started` delivery. -/
def JobEvent.isStartEv : JobEvent → Bool
  | .started _ => true
  | _ => false

/-- Whether an event is a `failed` occurrence. -/
def JobEvent.isFailEv : JobEvent → Bool
  | .failed _ => true
  | _ => false

/-- Occurrences of one exact event in a trace. -/
def cntE (e0 : JobEvent) (tr : List JobEvent) : Nat :=
  tr.countP (fun e => e = e0)

/-- `started i` occurrences. -/
def cntS (i : Nat) (tr : List JobEvent) : Nat := cntE (JobEvent.started i) tr

/-- `finished i` occurrences. -/
def cntF (i : Nat) (tr : List JobEvent) : Nat := cntE (JobEvent.finished i) tr

/-- `failed i` occurrences. -/
def cntFail (i : Nat) (tr : List JobEvent) : Nat := cntE (JobEvent.failed i) tr

/-- All `finished` deliveries in a trace. -/
def cntFinAll (tr : List JobEvent) : Nat := tr.countP JobEvent.isFinEv

/-- All `started` deliveries in a trace. -/
def cntStartAll (tr : List JobEvent) : Nat := tr.countP JobEvent.isStartEv

/-- All `failed` occurrences in a trace. -/
def cntFailAll (tr : List JobEvent) : Nat := tr.countP JobEvent.isFailEv

/-- A well-formed delivery trace for a batch of `n` jobs: every event
belongs to a submitted job, each job starts at most once, ends (finishes or
fails) at most once, and never ends before it has started. Queued signal
delivery preserves per-sender emission order, so this holds of the order in
which the GUI thread observes the events. -/
def Valid (n : Nat) (tr : List JobEvent) : Prop :=
  (∀ e ∈ tr, e.idx < n) ∧
  ∀ i, i < n →
    cntS i tr ≤ 1 ∧ cntF i tr + cntFail i tr ≤ 1 ∧
    ∀ k, k ≤ tr.length →
      cntF i (tr.take k) + cntFail i (tr.take k) ≤ cntS i (tr.take k)

instance decidableValid (n : Nat) (tr : List JobEvent) : Decidable (Valid n tr) := by
  unfold Valid; infer_instance

/-- The bounded-pool constraint with `maxThreadCount = c`: at every point
of the trace, at most `c` jobs have started and not yet ended (a job ends
by finishing or by raising, either way releasing its slot). -/
def Adm (c : Nat) (tr : List JobEvent) : Prop :=
  ∀ k, k ≤ tr.length →
    cntStartAll (tr.take k) ≤ cntFinAll (tr.take k) + cntFailAll (tr.take k) + c

instance decidableAdm (c : Nat) (tr : List JobEvent) : Decidable (Adm c tr) := by
  unfold Adm; infer_instance

/-- What the GUI thread does on one delivered event: dispatch to the
connected slot; `failed` occurrences deliver nothing. The Bool records
whether the "Slicing complete!" box was shown. -/
def stepEvent (s : AppState) : JobEvent → AppState × Bool
  | .started i => (threadStartProcessing s (Int.ofNat i), false)
  | .finished i => threadFinished s (Int.ofNat i)
  | .failed _ => (s, false)

/-- Process a delivery trace in order, counting "Slicing complete!" boxes. -/
def runTrace (s : AppState) (tr : List JobEvent) : AppState × Nat :=
  tr.foldl
    (fun p e =>
      let r := stepEvent p.1 e
      (r.1, p.2 + (if r.2 then 1 else 0)))
    (s, 0)

/-- The `MainWindow` state right after `_q_start` admitted a batch of `n`
jobs with pool size `mt`. -/
def initBatch (n mt : Nat) : AppState :=
  { items := List.replicate n WorkStatus.PENDING,
    workCount := n,
    workFinished := 0,
    processing := true,
    progressValue := 0,
    progressMax := n,
    controlsEnabled := false,
    threadsText := some (Int.ofNat mt),
    pool := some mt }

/-- The status the item of job `i` holds after the trace `tr` has been
delivered: `FINISHED` once its `finished` signal arrived, `PROCESSING` once
its `started` signal arrived, `PENDING` before that. -/
def jobStatus (tr : List JobEvent) (i : Nat) : WorkStatus :=
  if 0 < cntF i tr then WorkStatus.FINISHED
  else if 0 < cntS i tr then WorkStatus.PROCESSING
  else WorkStatus.PENDING

/-- How many items currently display `PROCESSING`. -/
def processingCount (s : AppState) : Nat :=
  s.items.countP (fun st => st = WorkStatus.PROCESSING)

/-- Fixture: a window with one queued file and no batch in flight. -/
def readyState : AppState :=
  { items := [WorkStatus.NEW], workCount := 0, workFinished := 0,
    processing := false, progressValue := 0, progressMax := 100,
    controlsEnabled := true, threadsText := some 2, pool := none }

/-- Fixture: a window with a batch in flight (`processing` is set). -/
def busyState : AppState :=
  { items := [WorkStatus.PROCESSING], workCount := 1, workFinished := 0,
    processing := true, progressValue := 0, progressMax := 1,
    controlsEnabled := false, threadsText := some 2, pool := some 2 }

/-- Fixture: a window with an empty task list. -/
def emptyListState : AppState :=
  { items := [], workCount := 0, workFinished := 0,
    processing := false, progressValue := 0, progressMax := 100,
    controlsEnabled := true, threadsText := none, pool := none }

/-! ## List and counting helpers -/

theorem sum_map_add (f g : Nat → Nat) (l : List Nat) :
    (l.map (fun i => f i + g i)).sum = (l.map f).sum + (l.map g).sum := by
  induction l with
  | nil => simp
  | cons a l ih => simp [ih]; omega

theorem sum_indicator (j n : Nat) :
    ((List.range n).map (fun i => if i = j then 1 else 0)).sum
      = if j < n then 1 else 0 := by
  induction n with
  | zero => simp
  | succ n ih =>
    rw [List.range_succ, List.map_append, List.sum_append, ih]
    simp only [List.map_cons, List.map_nil, List.sum_cons, List.sum_nil]
    rcases Nat.lt_trichotomy j n with h | h | h
    · have h1 : n ≠ j := by omega
      have h2 : j < n + 1 := by omega
      simp [h, h1, h2]
    · simp [h]
    · have h1 : ¬ j < n := by omega
      have h2 : n ≠ j := by omega
      have h3 : ¬ j < n + 1 := by omega
      simp [h1, h2, h3]

theorem sum_le_card (f : Nat → Nat) (l : List Nat) (h : ∀ i ∈ l, f i ≤ 1) :
    (l.map f).sum ≤ l.length := by
  induction l with
  | nil => simp
  | cons a l ih =>
    simp only [List.map_cons, List.sum_cons, List.length_cons]
    have ha := h a (List.mem_cons_self a l)
    have := ih (fun i hi => h i (List.mem_cons_of_mem a hi))
    omega

theorem sum_eq_card_forall (f : Nat → Nat) (l : List Nat)
    (hsum : (l.map f).sum = l.length) (hle : ∀ i ∈ l, f i ≤ 1) :
    ∀ i ∈ l, f i = 1 := by
  induction l with
  | nil => simp
  | cons a l ih =>
    simp only [List.map_cons, List.sum_cons, List.length_cons] at hsum
    have ha := hle a (List.mem_cons_self a l)
    have htail := sum_le_card f l (fun i hi => hle i (List.mem_cons_of_mem a hi))
    intro i hi
    rcases List.mem_cons.1 hi with rfl | hi'
    · omega
    · exact ih (by omega) (fun j hj => hle j (List.mem_cons_of_mem a hj)) i hi'

/-! ## Trace-counting lemmas -/

theorem cntE_append (e0 : JobEvent) (p q : List JobEvent) :
    cntE e0 (p ++ q) = cntE e0 p + cntE e0 q := by
  simp [cntE]

theorem cntE_singleton (e0 e : JobEvent) :
    cntE e0 [e] = if e = e0 then 1 else 0 := by
  simp [cntE, List.countP_cons]

theorem cntE_nil (e0 : JobEvent) : cntE e0 [] = 0 := rfl

theorem cntE_take_le (e0 : JobEvent) (tr : List JobEvent) (k : Nat) :
    cntE e0 (tr.take k) ≤ cntE e0 tr :=
  List.Sublist.countP_le _ (List.take_sublist k tr)

theorem countP_eq_sum_cnt (p : JobEvent → Bool) (c : Nat → JobEvent)
    (hpc : ∀ e, p e = true ↔ ∃ i, e = c i)
    (hinj : ∀ i j, c i = c j → i = j)
    (n : Nat) (tr : List JobEvent) (h : ∀ e ∈ tr, e.idx < n)
    (hidx : ∀ i, (c i).idx = i) :
    tr.countP p = ((List.range n).map (fun i => cntE (c i) tr)).sum := by
  induction tr with
  | nil => simp [cntE]
  | cons e rest ih =>
    have hrest : ∀ e' ∈ rest, e'.idx < n := fun e' he' => h e' (List.mem_cons_of_mem e he')
    have hmapcons : ∀ i : Nat,
        cntE (c i) (e :: rest) = cntE (c i) rest + if e = c i then 1 else 0 := by
      intro i
      simp [cntE, List.countP_cons]
    by_cases hp : p e = true
    · obtain ⟨j, rfl⟩ := (hpc e).1 hp
      have hj : j < n := by
        have := h (c j) (List.mem_cons_self _ _)
        rwa [hidx] at this
      rw [List.countP_cons_of_pos _ _ hp, ih hrest]
      have hpt : ∀ i ∈ List.range n,
          cntE (c i) (c j :: rest) = cntE (c i) rest + (if i = j then 1 else 0) := by
        intro i _
        rw [hmapcons i]
        congr 1
        by_cases hij : i = j
        · subst hij; simp
        · have : c j ≠ c i := fun hc => hij (hinj i j hc.symm)
          simp [this, hij]
      rw [List.map_congr_left hpt, sum_map_add, sum_indicator, if_pos hj]
    · rw [List.countP_cons, if_neg hp, Nat.add_zero, ih hrest]
      have hpt : ∀ i ∈ List.range n,
          cntE (c i) (e :: rest) = cntE (c i) rest := by
        intro i _
        rw [hmapcons i]
        have : e ≠ c i := by
          intro hc
          exact hp ((hpc e).2 ⟨i, hc⟩)
        simp [this]
      rw [List.map_congr_left hpt]

theorem cntFinAll_eq_sum (n : Nat) (tr : List JobEvent)
    (h : ∀ e ∈ tr, e.idx < n) :
    cntFinAll tr = ((List.range n).map (fun i => cntF i tr)).sum := by
  refine countP_eq_sum_cnt _ (fun i => JobEvent.finished i) ?_ ?_ n tr h ?_
  · intro e; cases e <;> simp [JobEvent.isFinEv]
  · intro i j hij; injection hij
  · intro i; rfl

theorem cntStartAll_eq_sum (n : Nat) (tr : List JobEvent)
    (h : ∀ e ∈ tr, e.idx < n) :
    cntStartAll tr = ((List.range n).map (fun i => cntS i tr)).sum := by
  refine countP_eq_sum_cnt _ (fun i => JobEvent.started i) ?_ ?_ n tr h ?_
  · intro e; cases e <;> simp [JobEvent.isStartEv]
  · intro i j hij; injection hij
  · intro i; rfl

/-! ## Facts about valid traces -/

theorem Valid.start_once {n : Nat} {tr : List JobEvent} (hv : Valid n tr)
    {i : Nat} (hi : i < n) : cntS i tr ≤ 1 := (hv.2 i hi).1

theorem Valid.end_once {n : Nat} {tr : List JobEvent} (hv : Valid n tr)
    {i : Nat} (hi : i < n) : cntF i tr + cntFail i tr ≤ 1 := (hv.2 i hi).2.1

theorem Valid.end_le_start_take {n : Nat} {tr : List JobEvent} (hv : Valid n tr)
    {i : Nat} (hi : i < n) (k : Nat) :
    cntF i (tr.take k) + cntFail i (tr.take k) ≤ cntS i (tr.take k) := by
  rcases le_or_lt k tr.length with h | h
  · exact (hv.2 i hi).2.2 k h
  · rw [List.take_of_length_le (Nat.le_of_lt h)]
    have := (hv.2 i hi).2.2 tr.length le_rfl
    rwa [List.take_length] at this

theorem Valid.end_le_start {n : Nat} {tr : List JobEvent} (hv : Valid n tr)
    {i : Nat} (hi : i < n) :
    cntF i tr + cntFail i tr ≤ cntS i tr := by
  have := hv.end_le_start_take hi tr.length
  rwa [List.take_length] at this

theorem Valid.take {n : Nat} {tr : List JobEvent} (hv : Valid n tr) (m : Nat) :
    Valid n (tr.take m) := by
  refine ⟨fun e he => hv.1 e (List.mem_of_mem_take he), fun i hi => ?_⟩
  refine ⟨le_trans (cntE_take_le _ _ _) (hv.start_once hi), ?_, ?_⟩
  · exact le_trans
      (Nat.add_le_add (cntE_take_le _ _ _) (cntE_take_le _ _ _)) (hv.end_once hi)
  · intro k _
    rw [List.take_take]
    exact hv.end_le_start_take hi (min k m)

theorem Valid.of_concat {n : Nat} {tr : List JobEvent} {e : JobEvent}
    (hv : Valid n (tr ++ [e])) : Valid n tr := by
  have := hv.take tr.length
  rwa [List.take_left] at this

theorem cntFinAll_le_of_valid {n : Nat} {tr : List JobEvent} (hv : Valid n tr) :
    cntFinAll tr ≤ n := by
  rw [cntFinAll_eq_sum n tr hv.1]
  have h1 : ∀ i ∈ List.range n, cntF i tr ≤ 1 := by
    intro i hi
    have hi' : i < n := List.mem_range.1 hi
    have := hv.end_once hi'
    omega
  have := sum_le_card (fun i => cntF i tr) (List.range n) h1
  simpa using this

/-! ## Item-list helpers -/

theorem set_map_range {α : Type} (f : Nat → α) (i : Nat) (v : α) (n : Nat)
    (hi : i < n) :
    ((List.range n).map f).set i v
      = (List.range n).map (fun j => if j = i then v else f j) := by
  apply List.ext_getElem
  · simp
  · intro k h1 h2
    simp only [List.length_set, List.length_map, List.length_range] at h1 h2
    rw [List.getElem_set]
    by_cases hk : i = k
    · subst hk
      simp
    · have hk' : k ≠ i := fun hc => hk hc.symm
      simp [hk, hk']

theorem getD_map_range {α : Type} (f : Nat → α) (d : α) {i n : Nat}
    (hi : i < n) : ((List.range n).map f).getD i d = f i := by
  rw [List.getD_eq_getElem?_getD]
  have hlen : i < ((List.range n).map f).length := by simpa using hi
  rw [List.getElem?_eq_getElem hlen]
  simp

/-! ## Single-step evolution of the GUI state -/

theorem runTrace_concat (s : AppState) (p : List JobEvent) (e : JobEvent) :
    runTrace s (p ++ [e]) =
      ((stepEvent (runTrace s p).1 e).1,
        (runTrace s p).2 + (if (stepEvent (runTrace s p).1 e).2 then 1 else 0)) := by
  simp [runTrace, List.foldl_append]

theorem jobStatus_of_fin {tr : List JobEvent} {i : Nat} (h : 0 < cntF i tr) :
    jobStatus tr i = WorkStatus.FINISHED := by
  simp [jobStatus, h]

theorem jobStatus_of_start {tr : List JobEvent} {i : Nat}
    (hf : cntF i tr = 0) (hs : 0 < cntS i tr) :
    jobStatus tr i = WorkStatus.PROCESSING := by
  simp [jobStatus, hf, hs]

theorem jobStatus_of_idle {tr : List JobEvent} {i : Nat}
    (hf : cntF i tr = 0) (hs : cntS i tr = 0) :
    jobStatus tr i = WorkStatus.PENDING := by
  simp [jobStatus, hf, hs]

theorem jobStatus_append_other {j : Nat} {e : JobEvent} (p : List JobEvent)
    (h1 : e ≠ JobEvent.started j) (h2 : e ≠ JobEvent.finished j) :
    jobStatus (p ++ [e]) j = jobStatus p j := by
  simp [jobStatus, cntF, cntS, cntE_append, cntE_singleton, h1, h2]

/-- Master characterization: processing a well-formed delivery trace from
the post-`_q_start` state yields exactly the state described by the event
counts, and the "Slicing complete!" box has been shown exactly once as soon
as all `n` finished signals have been delivered, else not at all. -/
theorem runTrace_master (n mt : Nat) (hn : 0 < n) (tr : List JobEvent)
    (hv : Valid n tr) :
    runTrace (initBatch n mt) tr =
      ({ items := (List.range n).map (jobStatus tr),
         workCount := n,
         workFinished := cntFinAll tr,
         processing := decide (cntFinAll tr < n),
         progressValue := cntFinAll tr,
         progressMax := n,
         controlsEnabled := decide (n ≤ cntFinAll tr),
         threadsText := some (Int.ofNat mt),
         pool := some mt },
       if n ≤ cntFinAll tr then 1 else 0) := by
  induction tr using List.reverseRecOn with
  | nil =>
    have hnle : ¬ n ≤ 0 := by omega
    have hpend : ∀ i ∈ List.range n, jobStatus [] i = WorkStatus.PENDING :=
      fun i _ => jobStatus_of_idle rfl rfl
    simp only [runTrace, List.foldl_nil]
    rw [show cntFinAll [] = 0 from rfl]
    rw [List.map_congr_left hpend, List.map_const']
    simp [initBatch, hn, hnle]
  | append_singleton p e ih =>
    have hvp : Valid n p := hv.of_concat
    have hein : e ∈ p ++ [e] := by simp
    have hidxe : e.idx < n := hv.1 e hein
    rw [runTrace_concat, ih hvp]
    cases e with
    | started i =>
      have hi : i < n := hidxe
      have hS1 : cntS i (p ++ [JobEvent.started i]) = cntS i p + 1 := by
        simp [cntS, cntE_append, cntE_singleton]
      have hSp : cntS i p = 0 := by
        have := hv.start_once hi
        omega
      have hFp : cntF i p = 0 := by
        have := hvp.end_le_start hi
        omega
      have hFe : cntF i (p ++ [JobEvent.started i]) = 0 := by
        have hFp' : cntE (JobEvent.finished i) p = 0 := hFp
        simp [cntF, cntE_append, cntE_singleton, hFp']
      have hcntAll : cntFinAll (p ++ [JobEvent.started i]) = cntFinAll p := by
        simp [cntFinAll, JobEvent.isFinEv]
      have hitems :
          ((List.range n).map (jobStatus p)).set i WorkStatus.PROCESSING
            = (List.range n).map (jobStatus (p ++ [JobEvent.started i])) := by
        rw [set_map_range _ _ _ _ hi]
        apply List.map_congr_left
        intro j hj
        by_cases hji : j = i
        · subst hji
          rw [if_pos rfl, jobStatus_of_start hFe (by omega)]
        · rw [if_neg hji,
            jobStatus_append_other p (by simp [Ne.symm hji]) (by simp)]
      simp only [stepEvent, threadStartProcessing, hcntAll]
      simp [hitems]
    | failed i =>
      have hcntAll : cntFinAll (p ++ [JobEvent.failed i]) = cntFinAll p := by
        simp [cntFinAll, JobEvent.isFinEv]
      have hitems : ∀ j ∈ List.range n,
          jobStatus p j = jobStatus (p ++ [JobEvent.failed i]) j := by
        intro j hj
        rw [jobStatus_append_other p (by simp) (by simp)]
      simp only [stepEvent, hcntAll]
      simp [List.map_congr_left hitems]
    | finished i =>
      have hi : i < n := hidxe
      have hF1 : cntF i (p ++ [JobEvent.finished i]) = cntF i p + 1 := by
        simp [cntF, cntE_append, cntE_singleton]
      have hFailSame :
          cntFail i (p ++ [JobEvent.finished i]) = cntFail i p := by
        simp [cntFail, cntE_append, cntE_singleton]
      have hSSame : cntS i (p ++ [JobEvent.finished i]) = cntS i p := by
        simp [cntS, cntE_append, cntE_singleton]
      have hFp : cntF i p = 0 := by
        have := hv.end_once hi
        omega
      have hSp : 0 < cntS i p := by
        have := hv.end_le_start hi
        omega
      have hcntAll :
          cntFinAll (p ++ [JobEvent.finished i]) = cntFinAll p + 1 := by
        simp [cntFinAll, JobEvent.isFinEv]
      have hle : cntFinAll (p ++ [JobEvent.finished i]) ≤ n :=
        cntFinAll_le_of_valid hv
      have hitems :
          ((List.range n).map (jobStatus p)).set i WorkStatus.FINISHED
            = (List.range n).map (jobStatus (p ++ [JobEvent.finished i])) := by
        rw [set_map_range _ _ _ _ hi]
        apply List.map_congr_left
        intro j hj
        by_cases hji : j = i
        · subst hji
          rw [if_pos rfl, jobStatus_of_fin (by omega)]
        · rw [if_neg hji,
            jobStatus_append_other p (by simp) (by simp [Ne.symm hji])]
      have h0le : (0 : Int) ≤ Int.ofNat i := Int.ofNat_nonneg i
      simp only [stepEvent, threadFinished, hcntAll, if_pos h0le,
        Int.toNat_ofNat]
      by_cases hfire : cntFinAll p + 1 = n
      · have hprev : ¬ n ≤ cntFinAll p := by omega
        simp [hfire, hitems, hprev]
      · have hlt : cntFinAll p + 1 < n := by omega
        have h1 : ¬ n ≤ cntFinAll p := by omega
        have h2 : ¬ n ≤ cntFinAll p + 1 := by omega
        simp [hfire, hitems, h1, h2, Nat.lt_of_succ_lt hlt, hlt]

/-! ## Counting items in `PROCESSING` state -/

theorem jobStatus_processing_iff {tr : List JobEvent} {i : Nat} :
    jobStatus tr i = WorkStatus.PROCESSING ↔ (cntF i tr = 0 ∧ 0 < cntS i tr) := by
  unfold jobStatus
  split_ifs with h1 h2
  · simp only [reduceCtorEq, false_iff]
    omega
  · simp only [true_iff]
    omega
  · simp only [reduceCtorEq, false_iff]
    omega

theorem countP_eq_sum_g (l : List Nat) (p : Nat → Bool) (g : Nat → Nat)
    (h : ∀ i ∈ l, (p i = true ↔ g i = 1) ∧ g i ≤ 1) :
    l.countP p = (l.map g).sum := by
  induction l with
  | nil => simp
  | cons a l ih =>
    have ha := h a (List.mem_cons_self a l)
    have htail := ih (fun i hi => h i (List.mem_cons_of_mem a hi))
    rw [List.countP_cons, List.map_cons, List.sum_cons, htail]
    by_cases hp : p a = true
    · rw [if_pos hp, (ha.1.1 hp)]
      omega
    · have : g a ≠ 1 := fun hg => hp (ha.1.2 hg)
      have : g a = 0 := by omega
      rw [if_neg hp, this]
      omega

theorem processingCount_plus_fin (n mt : Nat) (hn : 0 < n)
    (tr : List JobEvent) (hv : Valid n tr) :
    processingCount (runTrace (initBatch n mt) tr).1 + cntFinAll tr
      = cntStartAll tr := by
  rw [runTrace_master n mt hn tr hv]
  have hcomp : processingCount
      ({ items := (List.range n).map (jobStatus tr),
         workCount := n,
         workFinished := cntFinAll tr,
         processing := decide (cntFinAll tr < n),
         progressValue := cntFinAll tr,
         progressMax := n,
         controlsEnabled := decide (n ≤ cntFinAll tr),
         threadsText := some (Int.ofNat mt),
         pool := some mt } : AppState)
      = (List.range n).countP (fun i => jobStatus tr i = WorkStatus.PROCESSING) := by
    show ((List.range n).map (jobStatus tr)).countP _ = _
    rw [List.countP_map]
    rfl
  rw [hcomp]
  have hkey : (List.range n).countP
        (fun i => jobStatus tr i = WorkStatus.PROCESSING)
      = ((List.range n).map (fun i => cntS i tr - cntF i tr)).sum := by
    apply countP_eq_sum_g
    intro i hi
    have hi' : i < n := List.mem_range.1 hi
    have hS := hv.start_once hi'
    have hFS := hv.end_le_start hi'
    constructor
    · rw [decide_eq_true_eq, jobStatus_processing_iff]
      omega
    · omega
  rw [hkey]
  have hsplit :
      ((List.range n).map (fun i => (cntS i tr - cntF i tr) + cntF i tr)).sum
        = ((List.range n).map (fun i => cntS i tr)).sum := by
    apply congrArg
    apply List.map_congr_left
    intro i hi
    have hi' : i < n := List.mem_range.1 hi
    have hFS := hv.end_le_start hi'
    omega
  rw [sum_map_add] at hsplit
  rw [cntFinAll_eq_sum n tr hv.1, cntStartAll_eq_sum n tr hv.1]
  omega

theorem all_finished_of_complete (n : Nat) (tr : List JobEvent)
    (hv : Valid n tr) (hfin : cntFinAll tr = n) :
    ∀ i, i < n → 0 < cntF i tr := by
  have hsum := cntFinAll_eq_sum n tr hv.1
  rw [hfin] at hsum
  have hle : ∀ i ∈ List.range n, cntF i tr ≤ 1 := by
    intro i hi
    have hi' : i < n := List.mem_range.1 hi
    have := hv.end_once hi'
    omega
  have hall := sum_eq_card_forall (fun i => cntF i tr) (List.range n)
    (by rw [← hsum, List.length_range]) hle
  intro i hi
  have h2 : cntF i tr = 1 := hall i (List.mem_range.2 hi)
  omega

/-! ## Decimal rendering: injectivity and character set -/

theorem digitChar_inj_lt :
    ∀ m, m < 10 → ∀ k, k < 10 → Nat.digitChar m = Nat.digitChar k → m = k := by
  decide

theorem digitChar_mem_digits : ∀ m, m < 10 →
    Nat.digitChar m ∈ ['0', '1', '2', '3', '4', '5', '6', '7', '8', '9'] := by
  decide

theorem decReprAux_irrel :
    ∀ n f1 f2 : Nat, n < f1 → n < f2 → decReprAux f1 n = decReprAux f2 n := by
  intro n
  induction n using Nat.strong_induction_on with
  | _ n ih =>
    intro f1 f2 h1 h2
    cases f1 with
    | zero => omega
    | succ a =>
      cases f2 with
      | zero => omega
      | succ b =>
        simp only [decReprAux]
        by_cases h10 : n < 10
        · rw [if_pos h10, if_pos h10]
        · rw [if_neg h10, if_neg h10]
          have hd : n / 10 < n := Nat.div_lt_self (by omega) (by omega)
          rw [ih (n / 10) hd a b (by omega) (by omega)]

theorem decRepr_unfold (n : Nat) :
    decRepr n = if n < 10 then [Nat.digitChar n]
      else decRepr (n / 10) ++ [Nat.digitChar (n % 10)] := by
  show decReprAux (n + 1) n = _
  simp only [decReprAux]
  by_cases h10 : n < 10
  · rw [if_pos h10, if_pos h10]
  · rw [if_neg h10, if_neg h10]
    have hd : n / 10 < n := Nat.div_lt_self (by omega) (by omega)
    rw [decReprAux_irrel (n / 10) n (n / 10 + 1) hd (by omega)]
    rfl

theorem decRepr_ne_nil (n : Nat) : decRepr n ≠ [] := by
  rw [decRepr_unfold]
  split_ifs <;> simp

theorem decRepr_inj : ∀ m n : Nat, decRepr m = decRepr n → m = n := by
  intro m
  induction m using Nat.strong_induction_on with
  | _ m ih =>
    intro n h
    rw [decRepr_unfold m, decRepr_unfold n] at h
    by_cases hm : m < 10 <;> by_cases hn : n < 10
    · rw [if_pos hm, if_pos hn] at h
      simp only [List.cons.injEq, and_true] at h
      exact digitChar_inj_lt m hm n hn h
    · rw [if_pos hm, if_neg hn] at h
      have hlen := congrArg List.length h
      simp only [List.length_cons, List.length_nil, List.length_append] at hlen
      have hnn := decRepr_ne_nil (n / 10)
      have : (decRepr (n / 10)).length ≠ 0 := by
        intro h0
        exact hnn (List.length_eq_zero.1 h0)
      omega
    · rw [if_neg hm, if_pos hn] at h
      have hlen := congrArg List.length h
      simp only [List.length_cons, List.length_nil, List.length_append] at hlen
      have hnn := decRepr_ne_nil (m / 10)
      have : (decRepr (m / 10)).length ≠ 0 := by
        intro h0
        exact hnn (List.length_eq_zero.1 h0)
      omega
    · rw [if_neg hm, if_neg hn] at h
      obtain ⟨h1, h2⟩ := List.append_inj' h (by simp)
      have hd : m / 10 < m := Nat.div_lt_self (by omega) (by omega)
      have hdiv := ih (m / 10) hd (n / 10) h1
      simp only [List.cons.injEq, and_true] at h2
      have hmod := digitChar_inj_lt (m % 10) (Nat.mod_lt _ (by omega))
        (n % 10) (Nat.mod_lt _ (by omega)) h2
      have hm10 := Nat.div_add_mod m 10
      have hn10 := Nat.div_add_mod n 10
      omega

theorem mem_decRepr_digit :
    ∀ n c, c ∈ decRepr n → c ∈ ['0', '1', '2', '3', '4', '5', '6', '7', '8', '9'] := by
  intro n
  induction n using Nat.strong_induction_on with
  | _ n ih =>
    intro c hc
    rw [decRepr_unfold] at hc
    by_cases h10 : n < 10
    · rw [if_pos h10] at hc
      simp only [List.mem_singleton] at hc
      subst hc
      exact digitChar_mem_digits n h10
    · rw [if_neg h10] at hc
      rcases List.mem_append.1 hc with h | h
      · exact ih (n / 10) (Nat.div_lt_self (by omega) (by omega)) c h
      · simp only [List.mem_singleton] at h
        subst h
        exact digitChar_mem_digits (n % 10) (Nat.mod_lt _ (by omega))

theorem no_slash_decRepr (n : Nat) : '/' ∉ decRepr n := by
  intro h
  have := mem_decRepr_digit n '/' h
  revert this
  decide

/-! ## Path lemmas -/

theorem no_slash_pathBase (p : List Char) : '/' ∉ pathBase p := by
  intro h
  rw [pathBase, List.mem_reverse] at h
  have := List.mem_takeWhile_imp h
  simp at this

theorem pathBase_of_no_slash {p : List Char} (h : '/' ∉ p) : pathBase p = p := by
  rw [pathBase]
  have hall : ∀ c ∈ p.reverse, (c != '/') = true := by
    intro c hc
    rw [List.mem_reverse] at hc
    have : c ≠ '/' := fun hc' => h (hc' ▸ hc)
    simpa using this
  rw [List.takeWhile_eq_self_iff.2 hall, List.reverse_reverse]

theorem mem_stripLastExt {p : List Char} {c : Char} (h : c ∈ stripLastExt p) :
    c ∈ p := by
  rw [stripLastExt] at h
  split_ifs at h
  · rw [List.mem_reverse] at h
    have h1 : c ∈ p.reverse.dropWhile (fun c => c != '.') :=
      (List.drop_sublist 1 _).mem h
    have h2 : c ∈ p.reverse := (List.dropWhile_sublist _).mem h1
    rwa [List.mem_reverse] at h2
  · exact h

theorem no_slash_outputName (f : List Char) (i : Nat) :
    '/' ∉ outputName f i := by
  intro h
  rw [outputName] at h
  rcases List.mem_append.1 h with h | h
  · exact no_slash_pathBase f (mem_stripLastExt h)
  · rcases List.mem_cons.1 h with h | h
    · revert h; decide
    · rcases List.mem_append.1 h with h | h
      · exact no_slash_decRepr i h
      · revert h; decide

theorem outputName_ne_nil (f : List Char) (i : Nat) : outputName f i ≠ [] := by
  rw [outputName]
  simp

theorem pathBase_joinPath (d name : List Char) (hn : '/' ∉ name) :
    pathBase (joinPath d name) = name := by
  have hpos : ∀ c ∈ name.reverse, (c != '/') = true := by
    intro c hc
    rw [List.mem_reverse] at hc
    have : c ≠ '/' := fun hc' => hn (hc' ▸ hc)
    simpa using this
  rw [joinPath]
  split_ifs with h1 h2
  · exact pathBase_of_no_slash hn
  · rw [pathBase, List.reverse_append, List.takeWhile_append_of_pos hpos]
    obtain ⟨ys, hys⟩ := List.head?_eq_some_iff.1 (by
      rwa [List.head?_reverse] : d.reverse.head? = some '/')
    rw [hys]
    simp
  · rw [pathBase, List.reverse_append, List.reverse_cons, List.append_assoc]
    rw [List.takeWhile_append_of_pos hpos]
    simp

theorem stripLastExt_spec (s : List Char) (h : '.' ∈ s) :
    ∃ e, s = stripLastExt s ++ '.' :: e ∧ '.' ∉ e := by
  have hr : '.' ∈ s.reverse := List.mem_reverse.2 h
  have hne : s.reverse.dropWhile (fun c => c != '.') ≠ [] := by
    intro hnil
    have := List.dropWhile_eq_nil_iff.1 hnil _ hr
    simp at this
  have hhead : (s.reverse.dropWhile (fun c => c != '.')).head hne = '.' := by
    have := List.head_dropWhile_not (fun c => c != '.') s.reverse hne
    simpa using this
  have hcons : (s.reverse.dropWhile (fun c => c != '.'))
      = '.' :: (s.reverse.dropWhile (fun c => c != '.')).tail := by
    conv_lhs => rw [← List.head_cons_tail _ hne]
    rw [hhead]
  have hsplit := List.takeWhile_append_dropWhile (fun c => c != '.') s.reverse
  refine ⟨(s.reverse.takeWhile (fun c => c != '.')).reverse, ?_, ?_⟩
  · have hstrip : stripLastExt s
        = ((s.reverse.dropWhile (fun c => c != '.')).tail).reverse := by
      rw [stripLastExt, if_pos h, List.drop_one]
    rw [hstrip]
    conv_lhs => rw [← List.reverse_reverse s, ← hsplit, hcons]
    rw [List.reverse_append, List.reverse_cons, List.append_assoc]
    simp
  · intro hdot
    rw [List.mem_reverse] at hdot
    have := List.mem_takeWhile_imp hdot
    simp at this

theorem outputName_ne_pathBase (f : List Char) (i : Nat) :
    outputName f i ≠ pathBase f := by
  intro h
  rw [outputName] at h
  by_cases hB : '.' ∈ pathBase f
  · obtain ⟨e, hBe, _⟩ := stripLastExt_spec (pathBase f) hB
    have h' : stripLastExt (pathBase f) ++ '_' :: (decRepr i ++ '.' :: ['w', 'a', 'v'])
        = stripLastExt (pathBase f) ++ '.' :: e := h.trans hBe
    have := List.append_cancel_left h'
    simp at this
  · have hsb : stripLastExt (pathBase f) = pathBase f := by
      rw [stripLastExt, if_neg hB]
    rw [hsb] at h
    have hlen := congrArg List.length h
    simp at hlen

theorem outputName_inj (f : List Char) {i j : Nat}
    (h : outputName f i = outputName f j) : i = j := by
  rw [outputName, outputName] at h
  have h1 := List.append_cancel_left h
  simp only [List.cons.injEq, true_and] at h1
  have h2 := List.append_cancel_right h1
  exact decRepr_inj i j h2

theorem joinPath_inj_right (d : List Char) {n1 n2 : List Char}
    (h : joinPath d n1 = joinPath d n2) : n1 = n2 := by
  rw [joinPath, joinPath] at h
  split_ifs at h
  · exact h
  · exact List.append_cancel_left h
  · have := List.append_cancel_left h
    injection this

theorem segPath_ne_input (outDir f : List Char) (i : Nat) :
    segPath outDir f i ≠ f := by
  intro h
  have hb := congrArg pathBase h
  rw [segPath, pathBase_joinPath _ _ (no_slash_outputName f i)] at hb
  exact outputName_ne_pathBase f i hb

theorem dirname_of_no_slash {p : List Char} (h : '/' ∉ p) : dirname p = [] := by
  have hnil : p.reverse.dropWhile (fun c => c != '/') = [] := by
    apply List.dropWhile_eq_nil_iff.2
    intro c hc
    rw [List.mem_reverse] at hc
    have : c ≠ '/' := fun h' => h (h' ▸ hc)
    simpa using this
  simp [dirname, hnil]

theorem reverse_cons_ne_nil {c : Char} {t d : List Char}
    (hrev : d.reverse = c :: t) : c ∈ d ∧ d.getLast? = some c := by
  constructor
  · rw [← List.mem_reverse, hrev]
    exact List.mem_cons_self c t
  · rw [← List.head?_reverse, hrev]
    rfl

theorem dirname_joinPath (d name : List Char) (hn : '/' ∉ name)
    (hshape : d = [] ∨ (d ≠ [] ∧ d.all (fun c => c == '/') = true)
      ∨ (d ≠ [] ∧ d.getLast? ≠ some '/')) :
    dirname (joinPath d name) = d := by
  have hpos : ∀ c ∈ name.reverse, (c != '/') = true := by
    intro c hc
    rw [List.mem_reverse] at hc
    have : c ≠ '/' := fun h' => hn (h' ▸ hc)
    simpa using this
  rcases hshape with rfl | ⟨hd, hall⟩ | ⟨hd, hlast⟩
  · rw [joinPath, if_pos rfl]
    exact dirname_of_no_slash hn
  · obtain ⟨c, t, hct⟩ : ∃ c t, d.reverse = c :: t := by
      cases hrev2 : d.reverse with
      | nil => exact absurd (by rwa [List.reverse_eq_nil_iff] at hrev2) hd
      | cons c t => exact ⟨c, t, rfl⟩
    obtain ⟨hcd, hclast⟩ := reverse_cons_ne_nil hct
    have hcslash : c = '/' := by
      have := List.all_eq_true.1 hall c hcd
      simpa using this
    rw [joinPath, if_neg hd, if_pos (by rw [hclast, hcslash])]
    have hstop : d.reverse.dropWhile (fun x => x != '/') = d.reverse := by
      rw [hct, List.dropWhile_cons]
      simp [hcslash]
    simp only [dirname, List.reverse_append,
      List.dropWhile_append_of_pos hpos, hstop, List.reverse_reverse]
    rw [if_pos hall]
  · obtain ⟨c, t, hct⟩ : ∃ c t, d.reverse = c :: t := by
      cases hrev2 : d.reverse with
      | nil => exact absurd (by rwa [List.reverse_eq_nil_iff] at hrev2) hd
      | cons c t => exact ⟨c, t, rfl⟩
    obtain ⟨hcd, hclast⟩ := reverse_cons_ne_nil hct
    have hcne : c ≠ '/' := fun hcc => hlast (by rw [hclast, hcc])
    rw [joinPath, if_neg hd, if_neg hlast]
    have hrevall : (d ++ '/' :: name).reverse = name.reverse ++ '/' :: d.reverse := by
      rw [List.reverse_append, List.reverse_cons, List.append_assoc]
      rfl
    have hstop : ('/' :: d.reverse).dropWhile (fun x => x != '/') = '/' :: d.reverse := by
      rw [List.dropWhile_cons]
      simp
    have hnall : ¬ (d ++ ['/']).all (fun x => x == '/') = true := by
      intro hall2
      have := List.all_eq_true.1 hall2 c (List.mem_append.2 (Or.inl hcd))
      simp only [beq_iff_eq] at this
      exact hcne this
    have hhead : ('/' :: d.reverse).reverse = d ++ ['/'] := by
      rw [List.reverse_cons, List.reverse_reverse]
    simp only [dirname, hrevall, List.dropWhile_append_of_pos hpos, hstop, hhead]
    rw [if_neg hnall]
    have hrev3 : (d ++ ['/']).reverse = '/' :: d.reverse := by
      rw [List.reverse_append]
      rfl
    rw [hrev3, List.dropWhile_cons]
    have hstop2 : d.reverse.dropWhile (fun x => x == '/') = d.reverse := by
      rw [hct, List.dropWhile_cons]
      simp [hcne]
    simp [hstop2]

theorem head?_dropWhile_ne {p : Char → Bool} {l : List Char} {c : Char}
    (h : (l.dropWhile p).head? = some c) : p c = false := by
  induction l with
  | nil => simp at h
  | cons a l ih =>
    rw [List.dropWhile_cons] at h
    by_cases hp : p a = true
    · rw [if_pos hp] at h
      exact ih h
    · rw [if_neg hp] at h
      simp only [List.head?_cons, Option.some.injEq] at h
      subst h
      exact Bool.not_eq_true _ ▸ hp

theorem dirname_shape (p : List Char) :
    dirname p = [] ∨ (dirname p ≠ [] ∧ (dirname p).all (fun c => c == '/') = true)
      ∨ (dirname p ≠ [] ∧ (dirname p).getLast? ≠ some '/') := by
  by_cases hall : ((p.reverse.dropWhile (fun c => c != '/')).reverse).all
      (fun c => c == '/') = true
  · have hd : dirname p = (p.reverse.dropWhile (fun c => c != '/')).reverse := by
      simp only [dirname]
      rw [if_pos hall]
    by_cases hnil : dirname p = []
    · exact Or.inl hnil
    · refine Or.inr (Or.inl ⟨hnil, ?_⟩)
      rw [hd]
      exact hall
  · have hd : dirname p =
        (((p.reverse.dropWhile (fun c => c != '/')).reverse).reverse.dropWhile
          (fun c => c == '/')).reverse := by
      simp only [dirname]
      rw [if_neg hall]
    by_cases hnil : dirname p = []
    · exact Or.inl hnil
    · refine Or.inr (Or.inr ⟨hnil, ?_⟩)
      rw [hd, List.getLast?_reverse]
      intro hcon
      have := head?_dropWhile_ne hcon
      simp at this

/-! ## Per-job status transitions -/

theorem runTrace_items_eq (n mt : Nat) (hn : 0 < n) (tr : List JobEvent)
    (hv : Valid n tr) :
    (runTrace (initBatch n mt) tr).1.items = (List.range n).map (jobStatus tr) := by
  rw [runTrace_master n mt hn tr hv]

theorem runTrace_completions_eq (n mt : Nat) (hn : 0 < n) (tr : List JobEvent)
    (hv : Valid n tr) :
    (runTrace (initBatch n mt) tr).2 = if n ≤ cntFinAll tr then 1 else 0 := by
  rw [runTrace_master n mt hn tr hv]

theorem jobStatus_concat_started {n i : Nat} {q : List JobEvent}
    (hv : Valid n (q ++ [JobEvent.started i])) (hi : i < n) :
    jobStatus q i = WorkStatus.PENDING ∧
    jobStatus (q ++ [JobEvent.started i]) i = WorkStatus.PROCESSING := by
  have hvp : Valid n q := hv.of_concat
  have hS1 : cntS i (q ++ [JobEvent.started i]) = cntS i q + 1 := by
    simp [cntS, cntE_append, cntE_singleton]
  have hSp : cntS i q = 0 := by
    have := hv.start_once hi
    omega
  have hFp : cntF i q = 0 := by
    have := hvp.end_le_start hi
    omega
  have hFe : cntF i (q ++ [JobEvent.started i]) = 0 := by
    have hFp' : cntE (JobEvent.finished i) q = 0 := hFp
    simp [cntF, cntE_append, cntE_singleton, hFp']
  exact ⟨jobStatus_of_idle hFp hSp, jobStatus_of_start hFe (by omega)⟩

theorem jobStatus_concat_finished {n i : Nat} {q : List JobEvent}
    (hv : Valid n (q ++ [JobEvent.finished i])) (hi : i < n) :
    jobStatus q i = WorkStatus.PROCESSING ∧
    jobStatus (q ++ [JobEvent.finished i]) i = WorkStatus.FINISHED := by
  have hF1 : cntF i (q ++ [JobEvent.finished i]) = cntF i q + 1 := by
    simp [cntF, cntE_append, cntE_singleton]
  have hFq : cntF i q = 0 := by
    have := hv.end_once hi
    omega
  have hSq : 0 < cntS i q := by
    have h1 := hv.end_le_start hi
    have hSSame : cntS i (q ++ [JobEvent.finished i]) = cntS i q := by
      simp [cntS, cntE_append, cntE_singleton]
    have hFailSame : cntFail i (q ++ [JobEvent.finished i]) = cntFail i q := by
      simp [cntFail, cntE_append, cntE_singleton]
    omega
  exact ⟨jobStatus_of_start hFq hSq, jobStatus_of_fin (by omega)⟩

theorem jobStatus_step (n : Nat) (tr : List JobEvent) (hv : Valid n tr)
    (i k : Nat) (hi : i < n) :
    (jobStatus (tr.take (k + 1)) i = jobStatus (tr.take k) i
      ∨ (jobStatus (tr.take k) i = WorkStatus.PENDING ∧
          jobStatus (tr.take (k + 1)) i = WorkStatus.PROCESSING)
      ∨ (jobStatus (tr.take k) i = WorkStatus.PROCESSING ∧
          jobStatus (tr.take (k + 1)) i = WorkStatus.FINISHED)) ∧
    (jobStatus (tr.take k) i = WorkStatus.FINISHED →
      jobStatus (tr.take (k + 1)) i = WorkStatus.FINISHED) := by
  rcases le_or_lt tr.length k with hk | hk
  · have h1 : tr.take k = tr := List.take_of_length_le hk
    have h2 : tr.take (k + 1) = tr := List.take_of_length_le (by omega)
    rw [h1, h2]
    exact ⟨Or.inl rfl, fun h => h⟩
  · have hsucc : tr.take (k + 1) = tr.take k ++ [tr[k]] := by
      rw [List.take_succ, List.getElem?_eq_getElem hk]
      rfl
    have hvk1 : Valid n (tr.take (k + 1)) := hv.take (k + 1)
    rw [hsucc] at hvk1 ⊢
    cases he : tr[k] with
    | started j =>
      rw [he] at hvk1
      by_cases hji : j = i
      · subst hji
        obtain ⟨hold, hnew⟩ := jobStatus_concat_started hvk1 hi
        refine ⟨Or.inr (Or.inl ⟨hold, hnew⟩), fun hfin => ?_⟩
        rw [hold] at hfin
        exact absurd hfin (by decide)
      · rw [jobStatus_append_other (tr.take k) (by simp [hji]) (by simp)]
        exact ⟨Or.inl rfl, fun h => h⟩
    | finished j =>
      rw [he] at hvk1
      by_cases hji : j = i
      · subst hji
        obtain ⟨hold, hnew⟩ := jobStatus_concat_finished hvk1 hi
        exact ⟨Or.inr (Or.inr ⟨hold, hnew⟩), fun _ => hnew⟩
      · rw [jobStatus_append_other (tr.take k) (by simp) (by simp [hji])]
        exact ⟨Or.inl rfl, fun h => h⟩
    | failed j =>
      rw [jobStatus_append_other (tr.take k) (by simp) (by simp)]
      exact ⟨Or.inl rfl, fun h => h⟩

/-! ## Claim theorems -/

/-- C1: the claim says `Worker.run` emits its `finishedWithArgs`
notification even when the job fails. The code has no try/except:
evaluating `Worker.run` at inputs failing at each step (decode, slice,
write) shows one `startRunning` but zero `finishedWithArgs` emissions;
only a fully successful run emits it. -/
theorem worker_finished_not_unconditional :
    ((workerRun 0 ['a', '.', 'w', 'a', 'v'] []
        { loadOk := false, sliceOk := true, chunks := 1,
          writeOk := fun _ => true }).countP WEvent.isFin = 0) ∧
    ((workerRun 0 ['a', '.', 'w', 'a', 'v'] []
        { loadOk := true, sliceOk := false, chunks := 1,
          writeOk := fun _ => true }).countP WEvent.isFin = 0) ∧
    ((workerRun 0 ['a', '.', 'w', 'a', 'v'] []
        { loadOk := true, sliceOk := true, chunks := 2,
          writeOk := fun i => i == 0 }).countP WEvent.isFin = 0) ∧
    ((workerRun 0 ['a', '.', 'w', 'a', 'v'] []
        { loadOk := true, sliceOk := true, chunks := 2,
          writeOk := fun _ => true }).countP WEvent.isFin = 1) ∧
    ((workerRun 0 ['a', '.', 'w', 'a', 'v'] []
        { loadOk := false, sliceOk := true, chunks := 1,
          writeOk := fun _ => true }).countP WEvent.isStart = 1) := by
  decide

/-- C2: processing any well-formed delivery trace of a batch of `n` jobs,
the "Slicing complete!" signal has fired exactly once over a prefix iff
that prefix already contains all `n` finished notifications: it never
fires before the `n`-th finished notification, fires at it, and never
fires again. -/
theorem batch_complete_exactly_at_nth (n mt k : Nat) (tr : List JobEvent)
    (hn : 0 < n) (hv : Valid n tr) :
    ((runTrace (initBatch n mt) (tr.take k)).2
        = if n ≤ cntFinAll (tr.take k) then 1 else 0) ∧
    (cntFinAll (tr.take k) < n → (runTrace (initBatch n mt) (tr.take k)).2 = 0) ∧
    (cntFinAll tr = n → (runTrace (initBatch n mt) tr).2 = 1) := by
  have h1 := runTrace_completions_eq n mt hn (tr.take k) (hv.take k)
  refine ⟨h1, ?_, ?_⟩
  · intro hlt
    rw [h1, if_neg (by omega)]
  · intro hall
    rw [runTrace_completions_eq n mt hn tr hv, if_pos (by omega)]

theorem batch_complete_exactly_at_nth_witness :
    (0 < 1 ∧ Valid 1 [JobEvent.started 0, JobEvent.finished 0] ∧
      cntFinAll [JobEvent.started 0, JobEvent.finished 0] = 1) ∧
    (runTrace (initBatch 1 1) [JobEvent.started 0, JobEvent.finished 0]).2 = 1 :=
  ⟨⟨by decide, by decide, by decide⟩,
    (batch_complete_exactly_at_nth 1 1 0 [JobEvent.started 0, JobEvent.finished 0]
      (by decide) (by decide)).2.2 (by decide)⟩

/-- C3 counterexample: the claim says the finished notification carries a
success flag and a failing job's terminal status is `Error`. In the code
`finishedWithArgs` carries only the ordinal, a failing job emits no
finished notification at all, its item stays `PROCESSING` forever, and
`ERROR` is never assigned. -/
theorem failing_job_status_not_error :
    cntFail 0 [JobEvent.started 0, JobEvent.failed 0] = 1 ∧
    (runTrace (initBatch 1 1)
      [JobEvent.started 0, JobEvent.failed 0]).1.items.getD 0 WorkStatus.NEW
        = WorkStatus.PROCESSING ∧
    WorkStatus.PROCESSING ≠ WorkStatus.ERROR ∧
    WorkStatus.PROCESSING ≠ WorkStatus.FINISHED := by
  decide

/-- C3 amended: `_q_threadFinished` sets the item's status to `FINISHED`
unconditionally when a finished notification for it is processed, an item
is `FINISHED` only if its finished notification arrived, and no item is
ever set to `ERROR`. -/
theorem finished_sets_status_finished (n mt : Nat) (tr : List JobEvent)
    (hn : 0 < n) (hv : Valid n tr) (i : Nat) (hi : i < n) :
    ((runTrace (initBatch n mt) tr).1.items.getD i WorkStatus.NEW
        ≠ WorkStatus.ERROR) ∧
    (0 < cntF i tr →
      (runTrace (initBatch n mt) tr).1.items.getD i WorkStatus.NEW
        = WorkStatus.FINISHED) ∧
    (cntF i tr = 0 →
      (runTrace (initBatch n mt) tr).1.items.getD i WorkStatus.NEW
        ≠ WorkStatus.FINISHED) := by
  have hgd : (runTrace (initBatch n mt) tr).1.items.getD i WorkStatus.NEW
      = jobStatus tr i := by
    rw [runTrace_items_eq n mt hn tr hv]
    exact getD_map_range _ _ hi
  rw [hgd]
  refine ⟨?_, ?_, ?_⟩
  · unfold jobStatus
    split_ifs <;> simp
  · intro h
    exact jobStatus_of_fin h
  · intro h
    unfold jobStatus
    rw [if_neg (by omega)]
    split_ifs <;> simp

theorem finished_sets_status_finished_witness :
    (0 < 1 ∧ Valid 1 [JobEvent.started 0, JobEvent.finished 0] ∧ 0 < 1 ∧
      0 < cntF 0 [JobEvent.started 0, JobEvent.finished 0]) ∧
    (runTrace (initBatch 1 1)
      [JobEvent.started 0, JobEvent.finished 0]).1.items.getD 0 WorkStatus.NEW
        = WorkStatus.FINISHED :=
  ⟨⟨by decide, by decide, by decide, by decide⟩,
    (finished_sets_status_finished 1 1 [JobEvent.started 0, JobEvent.finished 0]
      (by decide) (by decide) 0 (by decide)).2.1 (by decide)⟩

/-- C4: the claim says a job with a missing input ends in `Error`, the
others in `Finished`, and batch completion still fires. Evaluating the
code on a batch of 2 where job 0's decode raises: job 0 emits no finished
notification, its item stays `PROCESSING` (never `ERROR`), the completion
box never shows, and `processing` stays set forever. -/
theorem missing_input_stalls_batch :
    ((workerRun 0 ['b', '.', 'w', 'a', 'v'] []
        { loadOk := false, sliceOk := true, chunks := 0,
          writeOk := fun _ => true }).countP WEvent.isFin = 0) ∧
    ((runTrace (initBatch 2 2)
      [JobEvent.started 0, JobEvent.started 1, JobEvent.finished 1]).2 = 0) ∧
    ((runTrace (initBatch 2 2)
      [JobEvent.started 0, JobEvent.started 1, JobEvent.finished 1]).1.items.getD 0
        WorkStatus.NEW = WorkStatus.PROCESSING) ∧
    ((runTrace (initBatch 2 2)
      [JobEvent.started 0, JobEvent.started 1, JobEvent.finished 1]).1.items.getD 1
        WorkStatus.NEW = WorkStatus.FINISHED) ∧
    ((runTrace (initBatch 2 2)
      [JobEvent.started 0, JobEvent.started 1, JobEvent.finished 1]).1.processing
        = true) := by
  decide

/-- C5: per-job lifecycle. New rows are created `NEW`; `_q_start` sets
every row to `PENDING`; thereafter, along any well-formed delivery trace a
row either keeps its status or moves `PENDING → PROCESSING` (its started
notification) or `PROCESSING → FINISHED` (its finished notification), and
once `FINISHED` it never changes again within the batch. -/
theorem job_lifecycle_machine (s : AppState) (hsp : s.processing = false)
    (m n mt ideal i k : Nat) (hlen : s.items.length = n) (hn : 0 < n)
    (tr : List JobEvent) (hv : Valid n tr) (hi : i < n) :
    (addAudioFiles s m).items = s.items ++ List.replicate m WorkStatus.NEW ∧
    (startBatch ideal s).1.items = List.replicate n WorkStatus.PENDING ∧
    ((runTrace (initBatch n mt) (tr.take (k + 1))).1.items.getD i WorkStatus.NEW
        = (runTrace (initBatch n mt) (tr.take k)).1.items.getD i WorkStatus.NEW
      ∨ ((runTrace (initBatch n mt) (tr.take k)).1.items.getD i WorkStatus.NEW
            = WorkStatus.PENDING ∧
          (runTrace (initBatch n mt) (tr.take (k + 1))).1.items.getD i WorkStatus.NEW
            = WorkStatus.PROCESSING)
      ∨ ((runTrace (initBatch n mt) (tr.take k)).1.items.getD i WorkStatus.NEW
            = WorkStatus.PROCESSING ∧
          (runTrace (initBatch n mt) (tr.take (k + 1))).1.items.getD i WorkStatus.NEW
            = WorkStatus.FINISHED)) ∧
    ((runTrace (initBatch n mt) (tr.take k)).1.items.getD i WorkStatus.NEW
        = WorkStatus.FINISHED →
      (runTrace (initBatch n mt) (tr.take (k + 1))).1.items.getD i WorkStatus.NEW
        = WorkStatus.FINISHED) := by
  have hst : ∀ j : Nat,
      (runTrace (initBatch n mt) (tr.take j)).1.items.getD i WorkStatus.NEW
        = jobStatus (tr.take j) i := by
    intro j
    rw [runTrace_items_eq n mt hn _ (hv.take j)]
    exact getD_map_range _ _ hi
  have hstep := jobStatus_step n tr hv i k hi
  refine ⟨?_, ?_, ?_, ?_⟩
  · rw [addAudioFiles, if_neg (by rw [hsp]; simp)]
  · rw [startBatch, if_neg (by rw [hsp]; simp),
      if_neg (by rw [hlen]; omega)]
    simp only [List.map_const']
    rw [hlen]
  · rw [hst k, hst (k + 1)]
    exact hstep.1
  · rw [hst k, hst (k + 1)]
    exact hstep.2

theorem job_lifecycle_machine_witness :
    (readyState.processing = false ∧ readyState.items.length = 1 ∧ 0 < 1 ∧
      Valid 1 [JobEvent.started 0, JobEvent.finished 0] ∧ 0 < 1) ∧
    (startBatch 2 readyState).1.items = List.replicate 1 WorkStatus.PENDING :=
  ⟨⟨by decide, by decide, by decide, by decide, by decide⟩,
    (job_lifecycle_machine readyState (by decide) 1 1 1 2 0 0 (by decide)
      (by decide) [JobEvent.started 0, JobEvent.finished 0]
      (by decide) (by decide)).2.1⟩

/-- C6: the output file name of segment `i` is
`stripLastExt (basename filename) ++ "_" ++ decimal i ++ ".wav"`, so two
distinct segment indices of the same job give distinct file names and,
joined to the same output directory, distinct paths. -/
theorem output_paths_distinct (f outDir : List Char) (i j : Nat)
    (hij : i ≠ j) :
    outputName f i ≠ outputName f j ∧
    segPath outDir f i ≠ segPath outDir f j := by
  have hname : outputName f i ≠ outputName f j :=
    fun h => hij (outputName_inj f h)
  refine ⟨hname, fun h => hname ?_⟩
  rw [segPath, segPath] at h
  exact joinPath_inj_right _ h

theorem output_paths_distinct_witness :
    ((0 : Nat) ≠ 1) ∧
    outputName ['a', '.', 'w', 'a', 'v'] 0 ≠ outputName ['a', '.', 'w', 'a', 'v'] 1 ∧
    segPath ['o'] ['a', '.', 'w', 'a', 'v'] 0 ≠ segPath ['o'] ['a', '.', 'w', 'a', 'v'] 1 :=
  ⟨by decide, output_paths_distinct ['a', '.', 'w', 'a', 'v'] ['o'] 0 1 (by decide)⟩

/-- C7: with an empty configured output directory every chunk is written
into the input file's own directory; with a non-empty one (written without
a trailing separator) every chunk is written into that directory; and the
path written is never the input file's path. -/
theorem worker_write_locations (outDir f : List Char) (i : Nat) :
    (outDir = [] → dirname (segPath outDir f i) = dirname f) ∧
    (outDir ≠ [] → outDir.getLast? ≠ some '/' →
      dirname (segPath outDir f i) = outDir) ∧
    segPath outDir f i ≠ f := by
  refine ⟨?_, ?_, segPath_ne_input outDir f i⟩
  · intro h
    subst h
    rw [segPath, effOutDir, if_pos rfl]
    exact dirname_joinPath (dirname f) _ (no_slash_outputName f i) (dirname_shape f)
  · intro h1 h2
    rw [segPath, effOutDir, if_neg h1]
    exact dirname_joinPath outDir _ (no_slash_outputName f i)
      (Or.inr (Or.inr ⟨h1, h2⟩))

theorem worker_write_locations_witness :
    (['o'] ≠ ([] : List Char) ∧ (['o'] : List Char).getLast? ≠ some '/') ∧
    dirname (segPath ['o'] ['/', 'x', '/', 'a', '.', 'w', 'a', 'v'] 0) = ['o'] ∧
    segPath ['o'] ['/', 'x', '/', 'a', '.', 'w', 'a', 'v'] 0
      ≠ ['/', 'x', '/', 'a', '.', 'w', 'a', 'v'] :=
  ⟨⟨by decide, by decide⟩,
    (worker_write_locations ['o'] ['/', 'x', '/', 'a', '.', 'w', 'a', 'v'] 0).2.1
      (by decide) (by decide),
    (worker_write_locations ['o'] ['/', 'x', '/', 'a', '.', 'w', 'a', 'v'] 0).2.2⟩

/-- C8: when a batch starts, the pool's `maxThreadCount` is the parsed
thread-count text when it parses to a value ≥ 1, and falls back to the
host-reported ideal thread count when the text does not parse or parses
below 1. -/
theorem pool_size_fallback (ideal : Nat) (s : AppState)
    (h1 : s.processing = false) (h2 : s.items ≠ []) :
    (startBatch ideal s).1.pool
        = some (computeMaxThreads s.threadsText ideal) ∧
    (s.threadsText = none → (startBatch ideal s).1.pool = some ideal) ∧
    (∀ v : Int, s.threadsText = some v → v < 1 →
      (startBatch ideal s).1.pool = some ideal) ∧
    (∀ v : Int, s.threadsText = some v → 1 ≤ v →
      (startBatch ideal s).1.pool = some v.toNat) := by
  have hproc : ¬ (s.processing = true) := by
    rw [h1]
    simp
  have hlen : ¬ (s.items.length = 0) := by
    intro h0
    exact h2 (List.length_eq_zero.1 h0)
  have hbase : (startBatch ideal s).1.pool
      = some (computeMaxThreads s.threadsText ideal) := by
    rw [startBatch, if_neg hproc, if_neg hlen]
  refine ⟨hbase, ?_, ?_, ?_⟩
  · intro ht
    rw [hbase, ht]
    rfl
  · intro v hv hlt
    rw [hbase, hv]
    simp [computeMaxThreads, hlt]
  · intro v hv hge
    have hnl : ¬ v < 1 := by omega
    rw [hbase, hv]
    simp [computeMaxThreads, hnl]

theorem pool_size_fallback_witness :
    (readyState.processing = false ∧ readyState.items ≠ [] ∧
      readyState.threadsText = some 2 ∧ (1 : Int) ≤ 2) ∧
    (startBatch 8 readyState).1.pool = some ((2 : Int).toNat) :=
  ⟨⟨by decide, by decide, by decide, by decide⟩,
    (pool_size_fallback 8 readyState (by decide) (by decide)).2.2.2 2
      (by decide) (by decide)⟩

/-- C9 counterexample: with concurrency cap 1, job 0 starts and then
raises (releasing its pool slot without a finished notification), job 1
starts in the freed slot; this trace respects the cap on running workers,
yet afterwards two items display `PROCESSING`, violating the claim that
never more than `C` jobs hold `Processing` status. -/
theorem processing_cap_violated_on_failure :
    Valid 2 [JobEvent.started 0, JobEvent.failed 0, JobEvent.started 1] ∧
    Adm 1 [JobEvent.started 0, JobEvent.failed 0, JobEvent.started 1] ∧
    processingCount (runTrace (initBatch 2 1)
      [JobEvent.started 0, JobEvent.failed 0, JobEvent.started 1]).1 = 2 ∧
    ¬ (2 ≤ 1) := by
  decide

/-- C9 amended: when no job fails, at most `c` items hold `PROCESSING`
after any prefix of a delivery trace that respects the pool bound `c`;
and when batch completion is reached (all `n` finished notifications
delivered) every item is in the terminal `FINISHED` status. -/
theorem processing_cap_and_terminal (n c mt : Nat) (tr : List JobEvent)
    (hn : 0 < n) (hv : Valid n tr) (ha : Adm c tr)
    (hnf : cntFailAll tr = 0) :
    (∀ k, processingCount (runTrace (initBatch n mt) (tr.take k)).1 ≤ c) ∧
    (cntFinAll tr = n → ∀ i, i < n →
      (runTrace (initBatch n mt) tr).1.items.getD i WorkStatus.NEW
        = WorkStatus.FINISHED) := by
  constructor
  · intro k
    have hvk := hv.take k
    have hpc := processingCount_plus_fin n mt hn _ hvk
    have hadm : cntStartAll (tr.take k)
        ≤ cntFinAll (tr.take k) + cntFailAll (tr.take k) + c := by
      rcases le_or_lt k tr.length with h | h
      · exact ha k h
      · rw [List.take_of_length_le (le_of_lt h)]
        have := ha tr.length le_rfl
        rwa [List.take_length] at this
    have hfail0 : cntFailAll (tr.take k) = 0 := by
      have hle : cntFailAll (tr.take k) ≤ cntFailAll tr :=
        List.Sublist.countP_le _ (List.take_sublist k tr)
      omega
    omega
  · intro hfin i hi
    have hF := all_finished_of_complete n tr hv hfin i hi
    have hgd : (runTrace (initBatch n mt) tr).1.items.getD i WorkStatus.NEW
        = jobStatus tr i := by
      rw [runTrace_items_eq n mt hn tr hv]
      exact getD_map_range _ _ hi
    rw [hgd, jobStatus_of_fin hF]

theorem processing_cap_and_terminal_witness :
    (0 < 2 ∧
      Valid 2 [JobEvent.started 0, JobEvent.finished 0,
        JobEvent.started 1, JobEvent.finished 1] ∧
      Adm 1 [JobEvent.started 0, JobEvent.finished 0,
        JobEvent.started 1, JobEvent.finished 1] ∧
      cntFailAll [JobEvent.started 0, JobEvent.finished 0,
        JobEvent.started 1, JobEvent.finished 1] = 0) ∧
    processingCount (runTrace (initBatch 2 1)
      ([JobEvent.started 0, JobEvent.finished 0,
        JobEvent.started 1, JobEvent.finished 1].take 3)).1 ≤ 1 :=
  ⟨⟨by decide, by decide, by decide, by decide⟩,
    (processing_cap_and_terminal 2 1 1
      [JobEvent.started 0, JobEvent.finished 0,
        JobEvent.started 1, JobEvent.finished 1]
      (by decide) (by decide) (by decide) (by decide)).1 3⟩

/-- C10: `_q_start` is a no-op when the task list is empty or a batch is
already in flight (no state change, no workers created), and while a batch
is in flight `_q_add_audio_files` and `_q_clear_audio_list` are no-ops
too. -/
theorem guards_are_no_ops (s : AppState) (ideal k : Nat) :
    (s.processing = true →
      startBatch ideal s = (s, []) ∧ addAudioFiles s k = s ∧
        clearAudioList s = s) ∧
    (s.items = [] → startBatch ideal s = (s, [])) := by
  constructor
  · intro hp
    refine ⟨?_, ?_, ?_⟩ <;>
      simp [startBatch, addAudioFiles, clearAudioList, hp]
  · intro hi
    by_cases hp : s.processing = true
    · simp [startBatch, hp]
    · simp [startBatch, hp, hi]

theorem guards_are_no_ops_witness :
    (busyState.processing = true ∧ emptyListState.items = []) ∧
    startBatch 4 busyState = (busyState, []) ∧
    addAudioFiles busyState 3 = busyState ∧
    clearAudioList busyState = busyState ∧
    startBatch 4 emptyListState = (emptyListState, []) :=
  ⟨⟨by decide, by decide⟩,
    ((guards_are_no_ops busyState 4 3).1 (by decide)).1,
    ((guards_are_no_ops busyState 4 3).1 (by decide)).2.1,
    ((guards_are_no_ops busyState 4 3).1 (by decide)).2.2,
    (guards_are_no_ops emptyListState 4 0).2 (by decide)⟩
